import Mathlib

/-!
Shallow embedding of the chronos incremental-sync, deduplication and
aggregation engine.

Sources embedded:
* `src/chronos/data/database.py` — `log_problem_solved`, the stats queries,
  `set_leetcode_target` / `get_leetcode_target`.
* `src/chronos/integrations/codeforces.py` — `check_codeforces_submissions`.
* `src/leetcode.py` — `check_leetcode_submissions`.
* `src/chronos/bot/handlers.py` — `_format_progress_bar`,
  `_format_summary_message`.

Modelling conventions: the Postgres `solved_problems` table (keyed on
`(platform, problem_id)`) is a `Finset` of keys; the per-platform cursor kept
in `key_value_store` is a natural number; dates are integers (day numbers).
Failures are injected through per-record oracles: a `DbOutcome` for the dedup
INSERT (`execError` = a `psycopg2.DatabaseError` raised while executing it,
which `log_problem_solved` catches; `connError` = a failure establishing the
connection, which propagates), a Boolean for the notification delivery (a
raising `send_message` — or, for LeetCode, a raising post-insert detail/code
fetch — is caught by the tick-level `except Exception` and aborts the rest of
the loop), and a `DbOutcome` for the `set_value` cursor save (whose
`DatabaseError` handler swallows the error, silently losing that save).
An emitted event is recorded in the returned event list.  Python floats in
the progress bar are modelled as exact rationals, and the `%.0f` display
rounding as ties-to-even rounding (`roundEven`), as Python formats floats.
-/

namespace Chronos

/-- The two platforms that ever write to `solved_problems`
(`log_problem_solved` is called only with `platform="codeforces"` or
`platform="leetcode"`). -/
inductive Platform
  | codeforces
  | leetcode
deriving DecidableEq, Repr

/-- A row key of `solved_problems`: `(platform, problem_id)`. -/
abbrev Key := Platform × String

/-- Outcome oracle for one dedup-store write.
`ok`: the INSERT executes and commits normally.
`execError`: `psycopg2.DatabaseError` raised during execute/commit — caught
inside `log_problem_solved`, rolled back.
`connError`: the connection cannot be established (or `get_db_connection`
re-raises) — the exception propagates out of `log_problem_solved`. -/
inductive DbOutcome
  | ok
  | execError
  | connError
deriving DecidableEq, Repr

/-- `database.log_problem_solved` (database.py lines 76–102):
`INSERT ... ON CONFLICT (platform, problem_id) DO NOTHING`, returning
`rowcount > 0`.  On a `DatabaseError` during the insert the code logs, rolls
back and returns `False`.  `none` models an exception propagating to the
caller (connection failure). -/
def log_problem_solved (solved : Finset Key) (k : Key) :
    DbOutcome → Option (Finset Key × Bool)
  | .connError => none
  | .execError => some (solved, false)
  | .ok => if k ∈ solved then some (solved, false) else some (insert k solved, true)

/-- The state a platform checker reads and writes: the shared dedup store and
that platform's cursor (`last_submission_id` for Codeforces,
`last_leetcode_timestamp` for LeetCode). -/
structure CheckerState where
  solved : Finset Key
  cursor : ℕ
deriving DecidableEq

/-! ### Codeforces checker (`check_codeforces_submissions`) -/

/-- One entry of `data["result"]` from the Codeforces `user.status` call,
restricted to the fields the checker logic reads, together with the failure
oracles for the effects its processing performs.  (Display-only fields —
problem name, language, runtime, memory — are dropped.)
`dbOutcome` is the oracle for this record's `log_problem_solved` call.
`deliverOK` is the oracle for the notification delivery attempted when the
insert reports a new unique solve: `false` means `context.bot.send_message`
raises — the tick-level `except Exception` then aborts the loop, skipping
this record's cursor save and all later records, while the dedup row has
already committed.
`saveOutcome` is the oracle for this record's `save_last_submission_id` →
`set_value` call: `ok` = the upsert commits; `execError` = a
`psycopg2.DatabaseError` during the upsert, caught *inside* `set_value`
(logged, rolled back) — the save is silently skipped and the loop continues;
`connError` = the connection cannot be established, the exception propagates
and aborts the loop after the (already delivered) notification. -/
structure CFSub where
  id : ℕ
  creationTimeSeconds : ℕ
  verdict : Option String
  contestId : ℕ
  problemIndex : String
  problemRating : Option ℕ
  dbOutcome : DbOutcome
  deliverOK : Bool
  saveOutcome : DbOutcome
deriving DecidableEq, Repr

/-- The dedup key the Codeforces checker builds:
`problem_id = f"{contestId}-{index}"` under platform `"codeforces"`. -/
def cfKey (s : CFSub) : Key :=
  (Platform.codeforces, toString s.contestId ++ "-" ++ s.problemIndex)

/-- The filter in codeforces.py lines 78–80:
`submission["id"] > last_processed_id and submission.get("verdict") == "OK"`. -/
def cfNewAccepted (last : ℕ) (result : List CFSub) : List CFSub :=
  result.filter fun s => decide (last < s.id ∧ s.verdict = some "OK")

/-- codeforces.py line 84: `sorted(new_successful_submissions, key=lambda x:
x['creationTimeSeconds'])` — a stable sort on `creationTimeSeconds`
(not on `id`, the value the cursor stores). -/
def cfSortChrono (l : List CFSub) : List CFSub :=
  l.mergeSort fun a b => a.creationTimeSeconds ≤ b.creationTimeSeconds

/-- The per-record loop of `check_codeforces_submissions` (lines 84–121):
for each record, attempt the dedup insert; if it reports a new unique solve,
send one notification; then `save_last_submission_id(submission["id"])`.
Returns the final state, the delivered events (the records notified) and the
list of cursor values actually committed, in order.  Abort paths, all caught
by the surrounding `except Exception` which ends the tick keeping whatever
was already written: a propagating exception from the insert
(`dbOutcome = connError`), from the delivery (`deliverOK = false`, after the
dedup row committed), or from the cursor save
(`saveOutcome = connError`, after the notification).  A `DatabaseError`
inside `set_value` (`saveOutcome = execError`) is swallowed there: that one
save is silently lost and the loop continues with the cursor unchanged. -/
def processCF : List CFSub → CheckerState → CheckerState × List CFSub × List ℕ
  | [], st => (st, [], [])
  | s :: rest, st =>
    match log_problem_solved st.solved (cfKey s) s.dbOutcome with
    | none => (st, [], [])
    | some (solved2, isNew) =>
      if isNew && !s.deliverOK then (⟨solved2, st.cursor⟩, [], [])
      else
        match s.saveOutcome with
        | .connError => (⟨solved2, st.cursor⟩, if isNew then [s] else [], [])
        | .execError =>
          let next := processCF rest ⟨solved2, st.cursor⟩
          (next.1, (if isNew then [s] else []) ++ next.2.1, next.2.2)
        | .ok =>
          let next := processCF rest ⟨solved2, s.id⟩
          (next.1, (if isNew then [s] else []) ++ next.2.1, s.id :: next.2.2)

/-- Result of the Codeforces fetch phase (lines 56–74 and the `except`
clauses): a transport-level failure, an HTTP error status, a timeout, an
application-level non-OK status, or a window of records. -/
inductive CFFetch
  | requestError
  | httpStatusError (code : ℕ)
  | timeout
  | statusFailed (comment : Option String)
  | ok (result : List CFSub)

/-- `check_codeforces_submissions` as a whole: every failure branch only
logs — no cursor save and no dedup write happens — and the coroutine returns
normally (the scheduler loop is never crashed). -/
def check_codeforces_submissions (f : CFFetch) (st : CheckerState) :
    CheckerState × List CFSub × List ℕ :=
  match f with
  | .ok result => processCF (cfSortChrono (cfNewAccepted st.cursor result)) st
  | _ => (st, [], [])

/-! ### LeetCode checker (`check_leetcode_submissions`) -/

/-- One entry of `recentAcSubmissionList` (all entries are accepted
submissions), restricted to the fields the checker logic reads, with the same
per-record failure oracles as `CFSub`: here `deliverOK = false` covers any
propagating exception on the new-solve path between the dedup insert and the
timestamp save — the submission-details fetch, the solution-code fetch or
`send_message` raising — and `saveOutcome` is the oracle for
`save_last_leetcode_timestamp` → `set_value`.  (A propagating failure of the
per-record difficulty fetch, which precedes the insert, has the same
observable effect as `dbOutcome = connError`: the tick aborts at this record
with nothing written for it.) -/
structure LCSub where
  id : ℕ
  timestamp : ℕ
  titleSlug : String
  dbOutcome : DbOutcome
  deliverOK : Bool
  saveOutcome : DbOutcome
deriving DecidableEq, Repr

/-- The dedup key the LeetCode checker builds: `problem_id = sub["titleSlug"]`
under platform `"leetcode"`. -/
def lcKey (s : LCSub) : Key :=
  (Platform.leetcode, s.titleSlug)

/-- leetcode.py lines 216–218: keep `int(sub["timestamp"]) > last_timestamp`. -/
def lcNew (last : ℕ) (subs : List LCSub) : List LCSub :=
  subs.filter fun s => decide (last < s.timestamp)

/-- leetcode.py line 221: `sorted(new_submissions, key=lambda x:
int(x["timestamp"]))` — here the sort key and the cursor key coincide. -/
def lcSortChrono (l : List LCSub) : List LCSub :=
  l.mergeSort fun a b => a.timestamp ≤ b.timestamp

/-- The per-record loop of `check_leetcode_submissions` (lines 221–273),
mirroring `processCF` — including its abort and silent-save-loss paths — but
saving `int(sub["timestamp"])` as the cursor. -/
def processLC : List LCSub → CheckerState → CheckerState × List LCSub × List ℕ
  | [], st => (st, [], [])
  | s :: rest, st =>
    match log_problem_solved st.solved (lcKey s) s.dbOutcome with
    | none => (st, [], [])
    | some (solved2, isNew) =>
      if isNew && !s.deliverOK then (⟨solved2, st.cursor⟩, [], [])
      else
        match s.saveOutcome with
        | .connError => (⟨solved2, st.cursor⟩, if isNew then [s] else [], [])
        | .execError =>
          let next := processLC rest ⟨solved2, st.cursor⟩
          (next.1, (if isNew then [s] else []) ++ next.2.1, next.2.2)
        | .ok =>
          let next := processLC rest ⟨solved2, s.timestamp⟩
          (next.1, (if isNew then [s] else []) ++ next.2.1, s.timestamp :: next.2.2)

/-- Result of the LeetCode fetch phase: a transport failure
(`httpx.RequestError`), a GraphQL-level error payload (`"errors" in data`,
lines 208–210), or the submission window. -/
inductive LCFetch
  | requestError
  | gqlErrors
  | ok (subs : List LCSub)

/-- `check_leetcode_submissions` as a whole: both failure branches return
before any state is touched. -/
def check_leetcode_submissions (f : LCFetch) (st : CheckerState) :
    CheckerState × List LCSub × List ℕ :=
  match f with
  | .ok subs => processLC (lcSortChrono (lcNew st.cursor subs)) st
  | _ => (st, [], [])

/-! ### Multi-tick traces over the shared dedup store -/

/-- The durable state both checkers share: the `solved_problems` table and the
two cursors of `key_value_store`. -/
structure GlobalState where
  solved : Finset Key
  cfCursor : ℕ
  lcCursor : ℕ
deriving DecidableEq

/-- One scheduler tick: either checker runs with whatever its fetch phase
produced. -/
inductive TickInput
  | cf (f : CFFetch)
  | lc (f : LCFetch)

/-- Run one tick, returning the new global state and the keys of the problems
for which a SolveEvent notification was sent. -/
def runTick (t : TickInput) (g : GlobalState) : GlobalState × List Key :=
  match t with
  | .cf f =>
    let r := check_codeforces_submissions f ⟨g.solved, g.cfCursor⟩
    (⟨r.1.solved, r.1.cursor, g.lcCursor⟩, r.2.1.map cfKey)
  | .lc f =>
    let r := check_leetcode_submissions f ⟨g.solved, g.lcCursor⟩
    (⟨r.1.solved, g.cfCursor, r.1.cursor⟩, r.2.1.map lcKey)

/-- Run a whole lifetime of ticks, concatenating the notified keys in order. -/
def runTrace : List TickInput → GlobalState → GlobalState × List Key
  | [], g => (g, [])
  | t :: ts, g =>
    let r := runTick t g
    let rest := runTrace ts r.1
    (rest.1, r.2 ++ rest.2)

/-! ### Stats aggregation (`get_daily_stats_from_db`, `_format_summary_message`) -/

/-- A row of `solved_problems`.  `first_solve_date` is an abstract day
number. -/
structure SolvedRow where
  platform : Platform
  problem_id : String
  first_solve_date : ℤ
  rating : String
deriving DecidableEq, Repr

/-- The `GROUP BY rating` of the stats queries, restricted to one platform's
rows: each distinct rating string with its row count. -/
def groupCounts (rs : List String) : List (String × ℕ) :=
  rs.dedup.map fun r => (r, rs.count r)

/-- The shared body of the three stats queries
(`SELECT platform, rating, COUNT(problem_id) FROM solved_problems WHERE
<period condition on first_solve_date> GROUP BY platform, rating`, nested
into a per-platform dict): the three functions differ only in the WHERE
predicate on the date. -/
def period_stats (db : List SolvedRow) (inPeriod : ℤ → Bool) (p : Platform) :
    List (String × ℕ) :=
  groupCounts
    ((db.filter fun r => decide (r.platform = p) && inPeriod r.first_solve_date).map
      SolvedRow.rating)

/-- `database.get_daily_stats_from_db` (lines 104–130):
`WHERE first_solve_date = %s` with today's date. -/
def get_daily_stats_from_db (db : List SolvedRow) (today : ℤ) :
    Platform → List (String × ℕ) :=
  period_stats db fun d => decide (d = today)

/-- `database.get_weekly_stats_from_db` (lines 161–190):
`WHERE first_solve_date >= %s` with the current week's Monday. -/
def get_weekly_stats_from_db (db : List SolvedRow) (start_of_week : ℤ) :
    Platform → List (String × ℕ) :=
  period_stats db fun d => decide (start_of_week ≤ d)

/-- `database.get_monthly_stats_from_db` (lines 132–159):
`WHERE first_solve_date >= %s` with the first day of the current month. -/
def get_monthly_stats_from_db (db : List SolvedRow) (first_day_of_month : ℤ) :
    Platform → List (String × ℕ) :=
  period_stats db fun d => decide (first_day_of_month ≤ d)

/-- The four LeetCode buckets of `_format_summary_message`. -/
structure LCBuckets where
  easy : ℕ
  medium : ℕ
  hard : ℕ
  na : ℕ
deriving DecidableEq, Repr

/-- handlers.py lines 47–55: route one `(difficulty, count)` entry of the
LeetCode stats dict into its bucket. -/
def lcAccum (acc : LCBuckets) (e : String × ℕ) : LCBuckets :=
  if e.1 = "Easy" then { acc with easy := acc.easy + e.2 }
  else if e.1 = "Medium" then { acc with medium := acc.medium + e.2 }
  else if e.1 = "Hard" then { acc with hard := acc.hard + e.2 }
  else { acc with na := acc.na + e.2 }

/-- The LeetCode bucket totals computed by `_format_summary_message`. -/
def lcBuckets (lst : List (String × ℕ)) : LCBuckets :=
  lst.foldl lcAccum ⟨0, 0, 0, 0⟩

/-- Python `str.isdigit` on the rating strings this system stores (ASCII
digits; the empty string is not a digit string). -/
def pyIsDigit (s : String) : Bool :=
  !s.isEmpty && s.all Char.isDigit

/-- The five Codeforces buckets of `_format_summary_message`. -/
structure CFBuckets where
  r800 : ℕ
  r1100 : ℕ
  r1400 : ℕ
  r1700 : ℕ
  na : ℕ
deriving DecidableEq, Repr

/-- handlers.py lines 66–80: route one `(rating, count)` entry of the
Codeforces stats dict into its bucket; non-digit strings and in-gap numeric
ratings both fall into `na`. -/
def cfAccum (acc : CFBuckets) (e : String × ℕ) : CFBuckets :=
  if pyIsDigit e.1 then
    let rating := e.1.toNat?.getD 0
    if 800 ≤ rating ∧ rating ≤ 1000 then { acc with r800 := acc.r800 + e.2 }
    else if 1100 ≤ rating ∧ rating ≤ 1300 then { acc with r1100 := acc.r1100 + e.2 }
    else if 1400 ≤ rating ∧ rating ≤ 1600 then { acc with r1400 := acc.r1400 + e.2 }
    else if 1700 ≤ rating then { acc with r1700 := acc.r1700 + e.2 }
    else { acc with na := acc.na + e.2 }
  else { acc with na := acc.na + e.2 }

/-- The Codeforces bucket totals computed by `_format_summary_message`. -/
def cfBuckets (lst : List (String × ℕ)) : CFBuckets :=
  lst.foldl cfAccum ⟨0, 0, 0, 0, 0⟩

/-- `sum(stats.values())` — the per-platform total of a stats dict. -/
def sumCounts (lst : List (String × ℕ)) : ℕ :=
  (lst.map Prod.snd).sum

/-- handlers.py line 83: `grand_total = lc_total + cf_total`. -/
def grand_total (stats : Platform → List (String × ℕ)) : ℕ :=
  sumCounts (stats Platform.leetcode) + sumCounts (stats Platform.codeforces)

/-! ### Target tracker (`set_leetcode_target` / `get_leetcode_target`) -/

/-- `target_type` values admitted by the CHECK constraint and the guards. -/
inductive Period
  | daily
  | weekly
  | monthly
deriving DecidableEq, Repr

/-- One row of `leetcode_targets` (the three thresholds). -/
structure Target where
  easy : ℕ
  medium : ℕ
  hard : ℕ
deriving DecidableEq, Repr

/-- The `leetcode_targets` table: at most one row per `target_type`
(enforced by the unique index). -/
abbrev TargetStore := Period → Option Target

/-- `database.set_leetcode_target` (lines 223–250): upsert
(`INSERT ... ON CONFLICT (target_type) DO UPDATE SET ...`), returning `True`;
on a `DatabaseError` (the `dbError` oracle) it rolls back and returns
`False`. -/
def set_leetcode_target (dbError : Bool) (store : TargetStore) (p : Period)
    (e m h : ℕ) : TargetStore × Bool :=
  if dbError then (store, false)
  else ((fun q => if q = p then some ⟨e, m, h⟩ else store q), true)

/-- `database.get_leetcode_target` (lines 253–280): the stored row, or
all-zero when no row exists for that `target_type`. -/
def get_leetcode_target (store : TargetStore) (p : Period) : Target :=
  (store p).getD ⟨0, 0, 0⟩

/-- A database with no `leetcode_targets` rows. -/
def emptyTargets : TargetStore := fun _ => none

/-! ### Progress bar (`_format_progress_bar`) -/

/-- Rounding to the nearest integer with ties to even — the rounding Python
uses both for `round()` and for `%.0f` / `f"{x:.0f}"` float formatting. -/
def roundEven (q : ℚ) : ℤ :=
  if q - q.floor < 1 / 2 then q.floor
  else if 1 / 2 < q - q.floor then q.floor + 1
  else if 2 ∣ q.floor then q.floor else q.floor + 1

/-- `handlers._format_progress_bar` (lines 17–33), with the display string
abstracted to its two numeric ingredients: `none` models the `"─"` (no
target) return; otherwise `some (filled_blocks, displayed percent)`, where
`percentage = min(100, current / target * 100)` is computed exactly over `ℚ`,
`filled_blocks = int(percentage / 10)` and the percent shown by
`f"{percentage:.0f}"` rounds ties to even (`roundEven`), as Python does —
e.g. `percentage = 12.5` (exact in binary floating point) displays as 12. -/
def format_progress_bar (current target : ℕ) : Option (ℕ × ℤ) :=
  if target = 0 then none
  else
    let percentage : ℚ := min 100 ((current : ℚ) / (target : ℚ) * 100)
    some ((percentage / 10).floor.toNat, roundEven percentage)

/-! ## Dedup (first-solve-wins) lemmas and C1 -/

lemma processCF_spec (l : List CFSub) (st : CheckerState) (k : Key) :
    st.solved ⊆ (processCF l st).1.solved
    ∧ (k ∈ st.solved → ((processCF l st).2.1.map cfKey).count k = 0)
    ∧ ((processCF l st).2.1.map cfKey).count k ≤ 1
    ∧ (((processCF l st).2.1.map cfKey).count k ≠ 0 → k ∈ (processCF l st).1.solved) := by
  induction l generalizing st with
  | nil => simp [processCF]
  | cons s rest ih =>
    cases ho : s.dbOutcome with
    | connError =>
      simp [processCF, log_problem_solved, ho]
    | execError =>
      cases hsv : s.saveOutcome with
      | connError => simp [processCF, log_problem_solved, ho, hsv]
      | execError =>
        have h := ih st
        simpa [processCF, log_problem_solved, ho, hsv] using h
      | ok =>
        have h := ih ⟨st.solved, s.id⟩
        simpa [processCF, log_problem_solved, ho, hsv] using h
    | ok =>
      by_cases hk : cfKey s ∈ st.solved
      · cases hsv : s.saveOutcome with
        | connError => simp [processCF, log_problem_solved, ho, hk, hsv]
        | execError =>
          have h := ih st
          simpa [processCF, log_problem_solved, ho, hk, hsv] using h
        | ok =>
          have h := ih ⟨st.solved, s.id⟩
          simpa [processCF, log_problem_solved, ho, hk, hsv] using h
      · cases hdel : s.deliverOK with
        | false =>
          refine ⟨?_, ?_, ?_, ?_⟩ <;>
            simp [processCF, log_problem_solved, ho, hk, hdel, Finset.subset_insert]
        | true =>
          cases hsv : s.saveOutcome with
          | connError =>
            refine ⟨?_, ?_, ?_, ?_⟩
            · simp only [processCF, log_problem_solved, ho, if_neg hk, hdel, hsv]
              simp [Finset.subset_insert]
            · intro hmem
              have hne : k ≠ cfKey s := fun h => hk (h ▸ hmem)
              simp [processCF, log_problem_solved, ho, hk, hdel, hsv, hne]
            · simp [processCF, log_problem_solved, ho, hk, hdel, hsv, List.count_cons]
              split <;> omega
            · intro hc
              simp only [processCF, log_problem_solved, ho, if_neg hk, hdel, hsv] at hc ⊢
              by_cases hke : k = cfKey s
              · exact hke ▸ Finset.mem_insert_self _ _
              · simp [hke] at hc
          | execError =>
            obtain ⟨h1, h2, h3, h4⟩ := ih ⟨insert (cfKey s) st.solved, st.cursor⟩
            refine ⟨?_, ?_, ?_, ?_⟩
            · simp only [processCF, log_problem_solved, ho, if_neg hk, hdel, hsv]
              exact (Finset.subset_insert _ _).trans h1
            · intro hmem
              have hne : k ≠ cfKey s := fun h => hk (h ▸ hmem)
              have hz := h2 (Finset.mem_insert_of_mem hmem)
              simp only [processCF, log_problem_solved, ho, if_neg hk, hdel, hsv]
              simp [List.count_append, hne, hz]
            · simp only [processCF, log_problem_solved, ho, if_neg hk, hdel, hsv]
              by_cases hke : k = cfKey s
              · subst hke
                have hz := h2 (Finset.mem_insert_self _ _)
                simp [List.count_append, hz]
              · simpa [List.count_append, hke] using h3
            · intro hc
              simp only [processCF, log_problem_solved, ho, if_neg hk, hdel, hsv] at hc ⊢
              by_cases hke : k = cfKey s
              · exact h1 (hke ▸ Finset.mem_insert_self _ _)
              · apply h4
                simpa [List.count_append, hke] using hc
          | ok =>
            obtain ⟨h1, h2, h3, h4⟩ := ih ⟨insert (cfKey s) st.solved, s.id⟩
            refine ⟨?_, ?_, ?_, ?_⟩
            · simp only [processCF, log_problem_solved, ho, if_neg hk, hdel, hsv]
              exact (Finset.subset_insert _ _).trans h1
            · intro hmem
              have hne : k ≠ cfKey s := fun h => hk (h ▸ hmem)
              have hz := h2 (Finset.mem_insert_of_mem hmem)
              simp only [processCF, log_problem_solved, ho, if_neg hk, hdel, hsv]
              simp [List.count_append, hne, hz]
            · simp only [processCF, log_problem_solved, ho, if_neg hk, hdel, hsv]
              by_cases hke : k = cfKey s
              · subst hke
                have hz := h2 (Finset.mem_insert_self _ _)
                simp [List.count_append, hz]
              · simpa [List.count_append, hke] using h3
            · intro hc
              simp only [processCF, log_problem_solved, ho, if_neg hk, hdel, hsv] at hc ⊢
              by_cases hke : k = cfKey s
              · exact h1 (hke ▸ Finset.mem_insert_self _ _)
              · apply h4
                simpa [List.count_append, hke] using hc

lemma processLC_spec (l : List LCSub) (st : CheckerState) (k : Key) :
    st.solved ⊆ (processLC l st).1.solved
    ∧ (k ∈ st.solved → ((processLC l st).2.1.map lcKey).count k = 0)
    ∧ ((processLC l st).2.1.map lcKey).count k ≤ 1
    ∧ (((processLC l st).2.1.map lcKey).count k ≠ 0 → k ∈ (processLC l st).1.solved) := by
  induction l generalizing st with
  | nil => simp [processLC]
  | cons s rest ih =>
    cases ho : s.dbOutcome with
    | connError =>
      simp [processLC, log_problem_solved, ho]
    | execError =>
      cases hsv : s.saveOutcome with
      | connError => simp [processLC, log_problem_solved, ho, hsv]
      | execError =>
        have h := ih st
        simpa [processLC, log_problem_solved, ho, hsv] using h
      | ok =>
        have h := ih ⟨st.solved, s.timestamp⟩
        simpa [processLC, log_problem_solved, ho, hsv] using h
    | ok =>
      by_cases hk : lcKey s ∈ st.solved
      · cases hsv : s.saveOutcome with
        | connError => simp [processLC, log_problem_solved, ho, hk, hsv]
        | execError =>
          have h := ih st
          simpa [processLC, log_problem_solved, ho, hk, hsv] using h
        | ok =>
          have h := ih ⟨st.solved, s.timestamp⟩
          simpa [processLC, log_problem_solved, ho, hk, hsv] using h
      · cases hdel : s.deliverOK with
        | false =>
          refine ⟨?_, ?_, ?_, ?_⟩ <;>
            simp [processLC, log_problem_solved, ho, hk, hdel, Finset.subset_insert]
        | true =>
          cases hsv : s.saveOutcome with
          | connError =>
            refine ⟨?_, ?_, ?_, ?_⟩
            · simp only [processLC, log_problem_solved, ho, if_neg hk, hdel, hsv]
              simp [Finset.subset_insert]
            · intro hmem
              have hne : k ≠ lcKey s := fun h => hk (h ▸ hmem)
              simp [processLC, log_problem_solved, ho, hk, hdel, hsv, hne]
            · simp [processLC, log_problem_solved, ho, hk, hdel, hsv, List.count_cons]
              split <;> omega
            · intro hc
              simp only [processLC, log_problem_solved, ho, if_neg hk, hdel, hsv] at hc ⊢
              by_cases hke : k = lcKey s
              · exact hke ▸ Finset.mem_insert_self _ _
              · simp [hke] at hc
          | execError =>
            obtain ⟨h1, h2, h3, h4⟩ := ih ⟨insert (lcKey s) st.solved, st.cursor⟩
            refine ⟨?_, ?_, ?_, ?_⟩
            · simp only [processLC, log_problem_solved, ho, if_neg hk, hdel, hsv]
              exact (Finset.subset_insert _ _).trans h1
            · intro hmem
              have hne : k ≠ lcKey s := fun h => hk (h ▸ hmem)
              have hz := h2 (Finset.mem_insert_of_mem hmem)
              simp only [processLC, log_problem_solved, ho, if_neg hk, hdel, hsv]
              simp [List.count_append, hne, hz]
            · simp only [processLC, log_problem_solved, ho, if_neg hk, hdel, hsv]
              by_cases hke : k = lcKey s
              · subst hke
                have hz := h2 (Finset.mem_insert_self _ _)
                simp [List.count_append, hz]
              · simpa [List.count_append, hke] using h3
            · intro hc
              simp only [processLC, log_problem_solved, ho, if_neg hk, hdel, hsv] at hc ⊢
              by_cases hke : k = lcKey s
              · exact h1 (hke ▸ Finset.mem_insert_self _ _)
              · apply h4
                simpa [List.count_append, hke] using hc
          | ok =>
            obtain ⟨h1, h2, h3, h4⟩ := ih ⟨insert (lcKey s) st.solved, s.timestamp⟩
            refine ⟨?_, ?_, ?_, ?_⟩
            · simp only [processLC, log_problem_solved, ho, if_neg hk, hdel, hsv]
              exact (Finset.subset_insert _ _).trans h1
            · intro hmem
              have hne : k ≠ lcKey s := fun h => hk (h ▸ hmem)
              have hz := h2 (Finset.mem_insert_of_mem hmem)
              simp only [processLC, log_problem_solved, ho, if_neg hk, hdel, hsv]
              simp [List.count_append, hne, hz]
            · simp only [processLC, log_problem_solved, ho, if_neg hk, hdel, hsv]
              by_cases hke : k = lcKey s
              · subst hke
                have hz := h2 (Finset.mem_insert_self _ _)
                simp [List.count_append, hz]
              · simpa [List.count_append, hke] using h3
            · intro hc
              simp only [processLC, log_problem_solved, ho, if_neg hk, hdel, hsv] at hc ⊢
              by_cases hke : k = lcKey s
              · exact h1 (hke ▸ Finset.mem_insert_self _ _)
              · apply h4
                simpa [List.count_append, hke] using hc

lemma runTick_spec (t : TickInput) (g : GlobalState) (k : Key) :
    g.solved ⊆ (runTick t g).1.solved
    ∧ (k ∈ g.solved → ((runTick t g).2).count k = 0)
    ∧ ((runTick t g).2).count k ≤ 1
    ∧ (((runTick t g).2).count k ≠ 0 → k ∈ (runTick t g).1.solved) := by
  cases t with
  | cf f =>
    cases f with
    | ok result =>
      have h := processCF_spec (cfSortChrono (cfNewAccepted g.cfCursor result))
        ⟨g.solved, g.cfCursor⟩ k
      simpa [runTick, check_codeforces_submissions] using h
    | requestError => simp [runTick, check_codeforces_submissions]
    | httpStatusError c => simp [runTick, check_codeforces_submissions]
    | timeout => simp [runTick, check_codeforces_submissions]
    | statusFailed c => simp [runTick, check_codeforces_submissions]
  | lc f =>
    cases f with
    | ok subs =>
      have h := processLC_spec (lcSortChrono (lcNew g.lcCursor subs))
        ⟨g.solved, g.lcCursor⟩ k
      simpa [runTick, check_leetcode_submissions] using h
    | requestError => simp [runTick, check_leetcode_submissions]
    | gqlErrors => simp [runTick, check_leetcode_submissions]

lemma runTrace_spec (ts : List TickInput) (g : GlobalState) (k : Key) :
    g.solved ⊆ (runTrace ts g).1.solved
    ∧ (k ∈ g.solved → ((runTrace ts g).2).count k = 0)
    ∧ ((runTrace ts g).2).count k ≤ 1
    ∧ (((runTrace ts g).2).count k ≠ 0 → k ∈ (runTrace ts g).1.solved) := by
  induction ts generalizing g with
  | nil => simp [runTrace]
  | cons t ts ih =>
    obtain ⟨a1, a2, a3, a4⟩ := runTick_spec t g k
    obtain ⟨b1, b2, b3, b4⟩ := ih (runTick t g).1
    refine ⟨a1.trans b1, ?_, ?_, ?_⟩
    · intro hmem
      simp [runTrace, List.count_append, a2 hmem, b2 (a1 hmem)]
    · simp only [runTrace, List.count_append]
      rcases Nat.eq_zero_or_pos (((runTick t g).2).count k) with hz | hp
      · simpa [hz] using b3
      · have h1 : ((runTick t g).2).count k = 1 := le_antisymm a3 hp
        have hm : k ∈ (runTick t g).1.solved := a4 (by omega)
        simp [h1, b2 hm]
    · intro hc
      simp only [runTrace, List.count_append] at hc
      rcases Nat.eq_zero_or_pos (((runTrace ts (runTick t g).1).2).count k) with hz | hp
      · have : ((runTick t g).2).count k ≠ 0 := by omega
        exact b1 (a4 this)
      · exact b4 (by omega)

/-- C1: over any whole lifetime of scheduler ticks, starting from any durable
state and under any combination of fetch failures, insert failures, delivery
failures and cursor-save failures, each distinct `(platform, problem_id)` key
is notified at most once: a SolveEvent can be delivered only on the branch
where `log_problem_solved` reports that its
`INSERT ... ON CONFLICT DO NOTHING` actually inserted the row, and once the
row exists it is never removed, so the insert can succeed at most once per
key (abort paths can only suppress a notification, never repeat one). -/
theorem claim_C1_at_most_one_event (ts : List TickInput) (g : GlobalState) (k : Key) :
    ((runTrace ts g).2).count k ≤ 1 :=
  (runTrace_spec ts g k).2.2.1


/-! ## Cursor, ordering and error-handling lemmas; remaining claims -/


lemma processCF_events_sublist (l : List CFSub) (st : CheckerState) :
    ((processCF l st).2.1).Sublist l := by
  induction l generalizing st with
  | nil => simp [processCF]
  | cons s rest ih =>
    cases ho : s.dbOutcome with
    | connError => simp [processCF, log_problem_solved, ho]
    | execError =>
      cases hsv : s.saveOutcome with
      | connError => simp [processCF, log_problem_solved, ho, hsv]
      | execError =>
        have h := ih st
        simp only [processCF, log_problem_solved, ho, hsv]
        simpa using h.cons s
      | ok =>
        have h := ih ⟨st.solved, s.id⟩
        simp only [processCF, log_problem_solved, ho, hsv]
        simpa using h.cons s
    | ok =>
      by_cases hk : cfKey s ∈ st.solved
      · cases hsv : s.saveOutcome with
        | connError => simp [processCF, log_problem_solved, ho, hk, hsv]
        | execError =>
          have h := ih st
          simp only [processCF, log_problem_solved, ho, if_pos hk, hsv]
          simpa using h.cons s
        | ok =>
          have h := ih ⟨st.solved, s.id⟩
          simp only [processCF, log_problem_solved, ho, if_pos hk, hsv]
          simpa using h.cons s
      · cases hdel : s.deliverOK with
        | false => simp [processCF, log_problem_solved, ho, hk, hdel]
        | true =>
          cases hsv : s.saveOutcome with
          | connError =>
            simp [processCF, log_problem_solved, ho, hk, hdel, hsv,
              List.Sublist.cons₂ s (List.nil_sublist rest)]
          | execError =>
            have h := ih ⟨insert (cfKey s) st.solved, st.cursor⟩
            simp only [processCF, log_problem_solved, ho, if_neg hk, hdel, hsv]
            simpa using h.cons₂ s
          | ok =>
            have h := ih ⟨insert (cfKey s) st.solved, s.id⟩
            simp only [processCF, log_problem_solved, ho, if_neg hk, hdel, hsv]
            simpa using h.cons₂ s

lemma processLC_events_sublist (l : List LCSub) (st : CheckerState) :
    ((processLC l st).2.1).Sublist l := by
  induction l generalizing st with
  | nil => simp [processLC]
  | cons s rest ih =>
    cases ho : s.dbOutcome with
    | connError => simp [processLC, log_problem_solved, ho]
    | execError =>
      cases hsv : s.saveOutcome with
      | connError => simp [processLC, log_problem_solved, ho, hsv]
      | execError =>
        have h := ih st
        simp only [processLC, log_problem_solved, ho, hsv]
        simpa using h.cons s
      | ok =>
        have h := ih ⟨st.solved, s.timestamp⟩
        simp only [processLC, log_problem_solved, ho, hsv]
        simpa using h.cons s
    | ok =>
      by_cases hk : lcKey s ∈ st.solved
      · cases hsv : s.saveOutcome with
        | connError => simp [processLC, log_problem_solved, ho, hk, hsv]
        | execError =>
          have h := ih st
          simp only [processLC, log_problem_solved, ho, if_pos hk, hsv]
          simpa using h.cons s
        | ok =>
          have h := ih ⟨st.solved, s.timestamp⟩
          simp only [processLC, log_problem_solved, ho, if_pos hk, hsv]
          simpa using h.cons s
      · cases hdel : s.deliverOK with
        | false => simp [processLC, log_problem_solved, ho, hk, hdel]
        | true =>
          cases hsv : s.saveOutcome with
          | connError =>
            simp [processLC, log_problem_solved, ho, hk, hdel, hsv,
              List.Sublist.cons₂ s (List.nil_sublist rest)]
          | execError =>
            have h := ih ⟨insert (lcKey s) st.solved, st.cursor⟩
            simp only [processLC, log_problem_solved, ho, if_neg hk, hdel, hsv]
            simpa using h.cons₂ s
          | ok =>
            have h := ih ⟨insert (lcKey s) st.solved, s.timestamp⟩
            simp only [processLC, log_problem_solved, ho, if_neg hk, hdel, hsv]
            simpa using h.cons₂ s

lemma cfSortChrono_pairwise (l : List CFSub) :
    (cfSortChrono l).Pairwise fun a b => a.creationTimeSeconds ≤ b.creationTimeSeconds := by
  have h := @List.sorted_mergeSort CFSub
    (fun a b => decide (a.creationTimeSeconds ≤ b.creationTimeSeconds))
    (fun a b c h1 h2 => by simp at *; omega)
    (fun a b => by simpa using Nat.le_total a.creationTimeSeconds b.creationTimeSeconds) l
  exact h.imp fun h => by simpa using h

lemma lcSortChrono_pairwise (l : List LCSub) :
    (lcSortChrono l).Pairwise fun a b => a.timestamp ≤ b.timestamp := by
  have h := @List.sorted_mergeSort LCSub
    (fun a b => decide (a.timestamp ≤ b.timestamp))
    (fun a b c h1 h2 => by simp at *; omega)
    (fun a b => by simpa using Nat.le_total a.timestamp b.timestamp) l
  exact h.imp fun h => by simpa using h

lemma cfSortChrono_mem {s : CFSub} {l : List CFSub} :
    s ∈ cfSortChrono l ↔ s ∈ l := List.mem_mergeSort

unseal List.merge List.mergeSort

/-- C7 counterexample: same two-record window as for C2 — both records are
new unique solves, so two events are emitted, in creation-time order
`[id 2, id 1]`, which is not ascending in sequenceValue (submission id). -/
theorem claim_C7_counterexample :
    let w : List CFSub := [⟨2, 1, some "OK", 2, "B", none, DbOutcome.ok, true, DbOutcome.ok⟩,
                           ⟨1, 2, some "OK", 1, "A", none, DbOutcome.ok, true, DbOutcome.ok⟩]
    let r := check_codeforces_submissions (CFFetch.ok w) ⟨∅, 0⟩
    r.2.1.map CFSub.id = [2, 1] ∧ ¬ (r.2.1.map CFSub.id).Pairwise (· ≤ ·) := by
  refine ⟨rfl, ?_⟩
  rw [show ((check_codeforces_submissions (CFFetch.ok
      [⟨2, 1, some "OK", 2, "B", none, DbOutcome.ok, true, DbOutcome.ok⟩,
       ⟨1, 2, some "OK", 1, "A", none, DbOutcome.ok, true, DbOutcome.ok⟩]) ⟨∅, 0⟩).2.1.map CFSub.id)
      = [2, 1] from rfl]
  intro h
  have := (List.pairwise_cons.mp h).1 1 (List.mem_cons_self _ _)
  omega

/-- C7 corrected: within one tick, Codeforces events are emitted in ascending
`creationTimeSeconds` (chronological) order — ascending submission-id order
holds only when creation-time order agrees with id order among the new
accepted records; LeetCode events are emitted in ascending timestamp order,
which is its sequenceValue. -/
theorem claim_C7_amended (result : List CFSub) (st : CheckerState)
    (hAgree : ∀ a ∈ cfNewAccepted st.cursor result, ∀ b ∈ cfNewAccepted st.cursor result,
        a.creationTimeSeconds ≤ b.creationTimeSeconds → a.id ≤ b.id)
    (subs : List LCSub) (stL : CheckerState) :
    ((check_codeforces_submissions (CFFetch.ok result) st).2.1.map
        CFSub.creationTimeSeconds).Pairwise (· ≤ ·)
    ∧ ((check_codeforces_submissions (CFFetch.ok result) st).2.1.map
        CFSub.id).Pairwise (· ≤ ·)
    ∧ ((check_leetcode_submissions (LCFetch.ok subs) stL).2.1.map
        LCSub.timestamp).Pairwise (· ≤ ·) := by
  have hmemCF : ∀ s ∈ cfSortChrono (cfNewAccepted st.cursor result),
      s ∈ cfNewAccepted st.cursor result := fun s hs => cfSortChrono_mem.mp hs
  have hsortId : (cfSortChrono (cfNewAccepted st.cursor result)).Pairwise
      (fun a b => a.id ≤ b.id) :=
    (cfSortChrono_pairwise _).imp_of_mem fun ha hb hab =>
      hAgree _ (hmemCF _ ha) _ (hmemCF _ hb) hab
  have hsub := processCF_events_sublist (cfSortChrono (cfNewAccepted st.cursor result)) st
  have hsubL := processLC_events_sublist (lcSortChrono (lcNew stL.cursor subs)) stL
  refine ⟨?_, ?_, ?_⟩
  · exact List.pairwise_map.mpr (List.Pairwise.sublist hsub (cfSortChrono_pairwise _))
  · exact List.pairwise_map.mpr (List.Pairwise.sublist hsub hsortId)
  · exact List.pairwise_map.mpr (List.Pairwise.sublist hsubL (lcSortChrono_pairwise _))

/-- Witness for `claim_C7_amended` at a concrete input. -/
theorem claim_C7_amended_witness :
    let result : List CFSub := [⟨5, 5, some "OK", 1, "A", none, DbOutcome.ok, true, DbOutcome.ok⟩,
                                ⟨6, 8, some "OK", 1, "B", none, DbOutcome.ok, true, DbOutcome.ok⟩]
    let subs : List LCSub := [⟨9, 50, "two-sum", DbOutcome.ok, true, DbOutcome.ok⟩]
    let st : CheckerState := ⟨∅, 0⟩
    let stL : CheckerState := ⟨∅, 7⟩
    ((check_codeforces_submissions (CFFetch.ok result) st).2.1.map
        CFSub.creationTimeSeconds).Pairwise (· ≤ ·)
    ∧ ((check_codeforces_submissions (CFFetch.ok result) st).2.1.map
        CFSub.id).Pairwise (· ≤ ·)
    ∧ ((check_leetcode_submissions (LCFetch.ok subs) stL).2.1.map
        LCSub.timestamp).Pairwise (· ≤ ·) :=
  claim_C7_amended [⟨5, 5, some "OK", 1, "A", none, DbOutcome.ok, true, DbOutcome.ok⟩,
      ⟨6, 8, some "OK", 1, "B", none, DbOutcome.ok, true, DbOutcome.ok⟩] ⟨∅, 0⟩
    (by decide) [⟨9, 50, "two-sum", DbOutcome.ok, true, DbOutcome.ok⟩] ⟨∅, 7⟩

/-- C6: the specified scenario.  With cursor 100, a window containing
(id 105 accepted, problem 2-B), (id 103 rejected), (id 101 accepted,
problem 1-A already in the dedup store), the rejected record is discarded,
the accepted new records are sorted ascending to `[101, 105]`, record 101
produces no event but saves cursor 101, record 105 inserts 2-B and emits the
single SolveEvent, and the tick ends with cursor 105.  (Creation times are
taken equal to ids, as on the real platform.) -/
theorem claim_C6_scenario :
    let p1 : Key := (Platform.codeforces, "1-A")
    let s105 : CFSub := ⟨105, 105, some "OK", 2, "B", none, DbOutcome.ok, true, DbOutcome.ok⟩
    let s103 : CFSub := ⟨103, 103, some "WRONG_ANSWER", 3, "C", none, DbOutcome.ok, true, DbOutcome.ok⟩
    let s101 : CFSub := ⟨101, 101, some "OK", 1, "A", none, DbOutcome.ok, true, DbOutcome.ok⟩
    cfNewAccepted 100 [s105, s103, s101] = [s105, s101]
    ∧ cfSortChrono (cfNewAccepted 100 [s105, s103, s101]) = [s101, s105]
    ∧ check_codeforces_submissions (CFFetch.ok [s105, s103, s101]) ⟨{p1}, 100⟩
        = (⟨insert (cfKey s105) {p1}, 105⟩, [s105], [101, 105])
    ∧ cfKey s105 = (Platform.codeforces, "2-B") :=
  ⟨rfl, rfl, rfl, rfl⟩

/-- C9: a transport error (`httpx.RequestError`, HTTP error status, timeout)
or an application-level error response (Codeforces non-OK status, LeetCode
GraphQL errors payload) aborts the tick before any processing: the state is
untouched, no event is emitted, no cursor value is saved, and the checker
returns normally — every such error is caught, so the scheduler loop
survives. -/
theorem claim_C9_fetch_errors (st stL : CheckerState) (code : ℕ)
    (comment : Option String) :
    check_codeforces_submissions CFFetch.requestError st = (st, [], [])
    ∧ check_codeforces_submissions (CFFetch.httpStatusError code) st = (st, [], [])
    ∧ check_codeforces_submissions CFFetch.timeout st = (st, [], [])
    ∧ check_codeforces_submissions (CFFetch.statusFailed comment) st = (st, [], [])
    ∧ check_leetcode_submissions LCFetch.requestError stL = (stL, [], [])
    ∧ check_leetcode_submissions LCFetch.gqlErrors stL = (stL, [], []) :=
  ⟨rfl, rfl, rfl, rfl, rfl, rfl⟩

/-- C10: a `DatabaseError` during the dedup INSERT is caught, rolled back
(the store is unchanged) and reported as `False` — exactly the value returned
when the key already exists — so the caller cannot tell a persistence failure
from an already-solved problem. -/
theorem claim_C10_db_error_is_false (solved : Finset Key) (k : Key)
    (hk : k ∈ solved) :
    log_problem_solved solved k DbOutcome.execError = some (solved, false)
    ∧ log_problem_solved solved k DbOutcome.ok = some (solved, false) :=
  ⟨rfl, by simp [log_problem_solved, hk]⟩

/-- Witness for `claim_C10_db_error_is_false` at a concrete input. -/
theorem claim_C10_witness :
    log_problem_solved {(Platform.leetcode, "two-sum")} (Platform.leetcode, "two-sum")
        DbOutcome.execError = some ({(Platform.leetcode, "two-sum")}, false)
    ∧ log_problem_solved {(Platform.leetcode, "two-sum")} (Platform.leetcode, "two-sum")
        DbOutcome.ok = some ({(Platform.leetcode, "two-sum")}, false) :=
  claim_C10_db_error_is_false {(Platform.leetcode, "two-sum")}
    (Platform.leetcode, "two-sum") (Finset.mem_singleton_self _)

/-- C8: after a successful `set_leetcode_target`, `get_leetcode_target`
returns exactly the three thresholds just written (wholesale overwrite by
upsert), and for a period never set it returns all zeros. -/
theorem claim_C8_target_upsert (db : Bool) (store : TargetStore) (p : Period)
    (e m h : ℕ) (hsucc : (set_leetcode_target db store p e m h).2 = true) :
    get_leetcode_target (set_leetcode_target db store p e m h).1 p = ⟨e, m, h⟩
    ∧ get_leetcode_target emptyTargets p = ⟨0, 0, 0⟩ := by
  cases db with
  | false => simp [set_leetcode_target, get_leetcode_target, emptyTargets]
  | true => simp [set_leetcode_target] at hsucc

/-- Witness for `claim_C8_target_upsert`: overwriting an existing daily
target with (4, 5, 6). -/
theorem claim_C8_witness :
    get_leetcode_target
        (set_leetcode_target false (fun _ => some ⟨1, 2, 3⟩) Period.daily 4 5 6).1
        Period.daily = ⟨4, 5, 6⟩
    ∧ get_leetcode_target emptyTargets Period.daily = ⟨0, 0, 0⟩ :=
  claim_C8_target_upsert false (fun _ => some ⟨1, 2, 3⟩) Period.daily 4 5 6 rfl


lemma round_rat_mono {x y : ℚ} (h : x ≤ y) : round x ≤ round y := by
  rw [round_eq, round_eq]
  exact Int.floor_le_floor (by linarith)

lemma ratFloor_eq (q : ℚ) : q.floor = ⌊q⌋ := by
  rw [Rat.floor_def', Rat.floor_def]

lemma roundEven_eq (q : ℚ) :
    roundEven q = if Int.fract q < 1 / 2 then ⌊q⌋
      else if 1 / 2 < Int.fract q then ⌊q⌋ + 1
      else if 2 ∣ ⌊q⌋ then ⌊q⌋ else ⌊q⌋ + 1 := by
  simp only [roundEven, ratFloor_eq, Int.fract]

lemma floor_le_roundEven (q : ℚ) : ⌊q⌋ ≤ roundEven q := by
  rw [roundEven_eq]
  split_ifs <;> omega

lemma roundEven_le_round (q : ℚ) : roundEven q ≤ round q := by
  have hfr : (⌊q⌋ : ℚ) + Int.fract q = q := Int.floor_add_fract q
  have h1 : ⌊q⌋ ≤ round q := by
    rw [round_eq]
    exact Int.floor_le_floor (by linarith)
  have h2 : 1 / 2 ≤ Int.fract q → ⌊q⌋ + 1 ≤ round q := by
    intro hf
    rw [round_eq]
    apply Int.le_floor.mpr
    push_cast
    linarith
  rw [roundEven_eq]
  split_ifs with ha hb
  · exact h1
  · exact h2 (le_of_lt hb)
  · exact h1
  · exact h2 (not_lt.mp ha)

lemma roundEven_intCast (n : ℤ) : roundEven ((n : ℤ) : ℚ) = n := by
  rw [roundEven_eq, Int.fract_intCast, Int.floor_intCast]
  norm_num

lemma roundEven_100 : roundEven (100 : ℚ) = 100 := by
  have h : ((100 : ℤ) : ℚ) = (100 : ℚ) := by norm_num
  rw [← h, roundEven_intCast]

lemma roundEven_min_100 (x : ℚ) : roundEven (min 100 x) = min 100 (roundEven x) := by
  rcases le_total x 100 with hx | hx
  · rw [min_eq_right hx]
    have hle : roundEven x ≤ 100 := by
      calc roundEven x ≤ round x := roundEven_le_round x
        _ ≤ round (100 : ℚ) := round_rat_mono hx
        _ = 100 := by norm_num
    rw [min_eq_right hle]
  · rw [min_eq_left hx]
    have hge : (100 : ℤ) ≤ roundEven x := by
      have h1 : (100 : ℤ) ≤ ⌊x⌋ := by
        have := Int.floor_le_floor (α := ℚ) hx
        simpa using this
      exact h1.trans (floor_le_roundEven x)
    rw [roundEven_100, min_eq_left hge]

/-- C4: the per-bucket progress computation.  `target = 0` yields the
distinct no-target value (no division happens); otherwise the displayed
percent is exactly `min(100, round(current / target * 100))` — where "round"
is Python's rounding with ties to even, shared by `round()` and the `%.0f`
display — and it never exceeds 100.  The three specified data points hold,
and the tie case `current = 1, target = 8` (percentage 12.5) displays 12, as
Python does. -/
theorem claim_C4_progress (current target : ℕ) (h : target ≠ 0) :
    format_progress_bar current 0 = none
    ∧ (format_progress_bar current target).map Prod.snd
        = some (min 100 (roundEven ((current : ℚ) / (target : ℚ) * 100)))
    ∧ (∀ fb pct, format_progress_bar current target = some (fb, pct) → pct ≤ 100)
    ∧ format_progress_bar 0 0 = none
    ∧ format_progress_bar 1 2 = some (5, 50)
    ∧ format_progress_bar 5 2 = some (10, 100)
    ∧ format_progress_bar 1 8 = some (1, 12) := by
  have hpct : roundEven (min (100 : ℚ) ((current : ℚ) / (target : ℚ) * 100))
      = min 100 (roundEven ((current : ℚ) / (target : ℚ) * 100)) := roundEven_min_100 _
  refine ⟨by simp [format_progress_bar], ?_, ?_, by simp [format_progress_bar],
    ?_, ?_, ?_⟩
  · simp only [format_progress_bar, if_neg h, Option.map_some]
    exact congrArg some hpct
  · intro fb pct heq
    simp only [format_progress_bar, if_neg h, Option.some.injEq, Prod.mk.injEq] at heq
    rw [← heq.2, hpct]
    exact min_le_left _ _
  · norm_num [format_progress_bar]
    refine ⟨?_, ?_⟩
    · rw [ratFloor_eq]
      simp
    · have hc : ((50 : ℤ) : ℚ) = (50 : ℚ) := by norm_num
      rw [← hc, roundEven_intCast]
  · norm_num [format_progress_bar]
    refine ⟨?_, ?_⟩
    · rw [ratFloor_eq]
      simp
    · exact roundEven_100
  · norm_num [format_progress_bar]
    have hf54 : ⌊(5 / 4 : ℚ)⌋ = 1 := by
      rw [Int.floor_eq_iff] <;> norm_num
    have hf : ⌊(25 / 2 : ℚ)⌋ = 12 := by
      rw [Int.floor_eq_iff] <;> norm_num
    have hr : Int.fract (25 / 2 : ℚ) = 1 / 2 := by
      rw [Int.fract, hf]
      norm_num
    refine ⟨?_, ?_⟩
    · rw [ratFloor_eq, hf54]
      rfl
    · rw [roundEven_eq, hf, hr]
      norm_num

/-- Witness for `claim_C4_progress` at current = 7, target = 10. -/
theorem claim_C4_witness :
    format_progress_bar 7 0 = none
    ∧ (format_progress_bar 7 10).map Prod.snd
        = some (min 100 (roundEven ((7 : ℚ) / (10 : ℚ) * 100)))
    ∧ (∀ fb pct, format_progress_bar 7 10 = some (fb, pct) → pct ≤ 100)
    ∧ format_progress_bar 0 0 = none
    ∧ format_progress_bar 1 2 = some (5, 50)
    ∧ format_progress_bar 5 2 = some (10, 100)
    ∧ format_progress_bar 1 8 = some (1, 12) :=
  claim_C4_progress 7 10 (by decide)


lemma lcBuckets_foldl_sum (lst : List (String × ℕ)) (acc : LCBuckets) :
    (lst.foldl lcAccum acc).easy + (lst.foldl lcAccum acc).medium
      + (lst.foldl lcAccum acc).hard + (lst.foldl lcAccum acc).na
    = acc.easy + acc.medium + acc.hard + acc.na + sumCounts lst := by
  induction lst generalizing acc with
  | nil => simp [sumCounts]
  | cons e rest ih =>
    rw [List.foldl_cons, ih]
    have hstep : (lcAccum acc e).easy + (lcAccum acc e).medium + (lcAccum acc e).hard
        + (lcAccum acc e).na = acc.easy + acc.medium + acc.hard + acc.na + e.2 := by
      simp only [lcAccum]
      split_ifs <;> simp <;> omega
    have hsum : sumCounts (e :: rest) = e.2 + sumCounts rest := by
      simp [sumCounts]
    omega

lemma cfBuckets_foldl_sum (lst : List (String × ℕ)) (acc : CFBuckets) :
    (lst.foldl cfAccum acc).r800 + (lst.foldl cfAccum acc).r1100
      + (lst.foldl cfAccum acc).r1400 + (lst.foldl cfAccum acc).r1700
      + (lst.foldl cfAccum acc).na
    = acc.r800 + acc.r1100 + acc.r1400 + acc.r1700 + acc.na + sumCounts lst := by
  induction lst generalizing acc with
  | nil => simp [sumCounts]
  | cons e rest ih =>
    rw [List.foldl_cons, ih]
    have hstep : (cfAccum acc e).r800 + (cfAccum acc e).r1100 + (cfAccum acc e).r1400
        + (cfAccum acc e).r1700 + (cfAccum acc e).na
        = acc.r800 + acc.r1100 + acc.r1400 + acc.r1700 + acc.na + e.2 := by
      simp only [cfAccum]
      split_ifs <;> simp <;> omega
    have hsum : sumCounts (e :: rest) = e.2 + sumCounts rest := by
      simp [sumCounts]
    omega

lemma sumCounts_groupCounts (rs : List String) : sumCounts (groupCounts rs) = rs.length := by
  rw [sumCounts, groupCounts, List.map_map]
  simpa [Function.comp] using List.sum_map_count_dedup_eq_length rs

lemma length_filter_platform_split (db : List SolvedRow) (q : ℤ → Bool) :
    (db.filter fun r => q r.first_solve_date).length
      = (db.filter fun r =>
          decide (r.platform = Platform.leetcode) && q r.first_solve_date).length
      + (db.filter fun r =>
          decide (r.platform = Platform.codeforces) && q r.first_solve_date).length := by
  induction db with
  | nil => simp
  | cons r rest ih =>
    simp only [List.filter_cons]
    cases hp : r.platform <;> cases hq : q r.first_solve_date <;>
      simp [hp, hq, ih] <;> omega

/-- C5: for any period predicate on `first_solve_date`, the aggregation in
`_format_summary_message` over the grouped stats satisfies: each platform's
bucket counts sum to that platform's period total; each platform's total is
the number of its rows in the period; the grand total is the sum of the two
platform totals and equals the number of rows in the period.  The daily,
weekly and monthly queries are exactly this stats map at their respective
period predicates. -/
theorem claim_C5_aggregation (db : List SolvedRow) (inPeriod : ℤ → Bool)
    (today start_of_week first_day_of_month : ℤ) :
    let stats := period_stats db inPeriod
    let lc := lcBuckets (stats Platform.leetcode)
    let cf := cfBuckets (stats Platform.codeforces)
    lc.easy + lc.medium + lc.hard + lc.na = sumCounts (stats Platform.leetcode)
    ∧ cf.r800 + cf.r1100 + cf.r1400 + cf.r1700 + cf.na
        = sumCounts (stats Platform.codeforces)
    ∧ sumCounts (stats Platform.leetcode)
        = (db.filter fun r =>
            decide (r.platform = Platform.leetcode) && inPeriod r.first_solve_date).length
    ∧ sumCounts (stats Platform.codeforces)
        = (db.filter fun r =>
            decide (r.platform = Platform.codeforces) && inPeriod r.first_solve_date).length
    ∧ grand_total stats
        = sumCounts (stats Platform.leetcode) + sumCounts (stats Platform.codeforces)
    ∧ grand_total stats = (db.filter fun r => inPeriod r.first_solve_date).length
    ∧ get_daily_stats_from_db db today = period_stats db (fun d => decide (d = today))
    ∧ get_weekly_stats_from_db db start_of_week
        = period_stats db (fun d => decide (start_of_week ≤ d))
    ∧ get_monthly_stats_from_db db first_day_of_month
        = period_stats db (fun d => decide (first_day_of_month ≤ d)) := by
  have hlcT : sumCounts (period_stats db inPeriod Platform.leetcode)
      = (db.filter fun r =>
          decide (r.platform = Platform.leetcode) && inPeriod r.first_solve_date).length := by
    rw [period_stats, sumCounts_groupCounts, List.length_map]
  have hcfT : sumCounts (period_stats db inPeriod Platform.codeforces)
      = (db.filter fun r =>
          decide (r.platform = Platform.codeforces) && inPeriod r.first_solve_date).length := by
    rw [period_stats, sumCounts_groupCounts, List.length_map]
  refine ⟨?_, ?_, hlcT, hcfT, rfl, ?_, rfl, rfl, rfl⟩
  · simpa using lcBuckets_foldl_sum (period_stats db inPeriod Platform.leetcode) ⟨0, 0, 0, 0⟩
  · simpa using cfBuckets_foldl_sum (period_stats db inPeriod Platform.codeforces) ⟨0, 0, 0, 0, 0⟩
  · rw [grand_total, hlcT, hcfT, length_filter_platform_split db inPeriod]


end Chronos

